import Mathlib

/-!
Verification of the format-selection, URL-classification, dispatch and
command-construction logic of `quicktube.py`.

The Python source is shallowly embedded as follows.

* A raw yt-dlp format descriptor (one element of the `formats` JSON array)
  becomes the structure `Format`.  Every JSON field read by the program is an
  `Option` field; `none` models a field that is absent from the JSON object or
  holds JSON `null` (the program reads every such field with `dict.get`, for
  which both cases produce `None`, except where noted in comments).
* Python's `x or 0` idiom on a possibly-missing number is `Option.getD 0`
  (both `None` and `0` are falsy, and both produce `0`).
* The insertion-ordered Python `dict` `unique_resolutions` is an association
  list `List (Int × Format)`; assignment to a fresh key appends at the end and
  assignment to an existing key overwrites in place, exactly as a Python dict
  preserves insertion order.
* `list.sort(key=..., reverse=True)` is a stable sort; it is embedded as a
  stable insertion sort (`sortRowsDesc`).  The kept heights are pairwise
  distinct, so every correct descending sort produces the same list.
* Numbers: heights and widths are JSON integers, embedded as `Int`; frame
  rates and byte sizes may be fractional in yt-dlp output and are embedded as
  `ℚ`.  Python's float formatting `f"(value):.1f"` (braces elided) is embedded
  as exact rational rounding half-to-even to one decimal digit; the double
  rounding a binary float can introduce in borderline cases is outside the
  model, and no claim depends on those digits.  Likewise `str` of a frame rate
  agrees with the model on integral values; non-integral frame rates are
  rendered in rational notation.  These limits are shared by every renderer
  definition below, so comparisons between them are unaffected.
-/

/-- One raw stream-format descriptor from the `formats` array of the yt-dlp
`-J` JSON dump, restricted to the fields `handle_youtube` reads. -/
structure Format where
  format_id : Option String := none
  width : Option Int := none
  height : Option Int := none
  fps : Option ℚ := none
  vcodec : Option String := none
  acodec : Option String := none
  ext : Option String := none
  filesize : Option ℚ := none
  filesize_approx : Option ℚ := none
deriving DecidableEq

/-- Python `f.get("height") or 0` (line 380). -/
def heightOf (f : Format) : Int := f.height.getD 0

/-- Python `f.get("fps") or 0` (lines 383 and 401). -/
def fpsOf (f : Format) : ℚ := f.fps.getD 0

/-- Python `f.get("format_id", "N/A")` (line 399). -/
def fmtId (f : Format) : String := f.format_id.getD "N/A"

/-- Python `f.get("acodec", "none") != "none"` (line 403). -/
def hasAudio (f : Format) : Bool := !(f.acodec.getD "none" == "none")

/-- Python `f.get("filesize") or f.get("filesize_approx")` (line 406): the
first operand is kept when it is truthy (present and nonzero), otherwise the
second operand is the value of the expression. -/
def pySize (f : Format) : Option ℚ :=
  if f.filesize.getD 0 ≠ 0 then f.filesize else f.filesize_approx

/-- First element of an association list with the given key, i.e. Python
`unique_resolutions[height]` / the `height in unique_resolutions` test
(lines 386 and 389). -/
def lookupH (h : Int) : List (Int × Format) → Option Format
  | [] => none
  | (k, v) :: rest => if k = h then some v else lookupH h rest

/-- Overwrite the value stored under an existing key, keeping its position:
Python `unique_resolutions[height] = f` on a key already present (line 392). -/
def updateH (h : Int) (f : Format) : List (Int × Format) → List (Int × Format)
  | [] => []
  | (k, v) :: rest => if k = h then (k, f) :: rest else (k, v) :: updateH h f rest

/-- One iteration of the `for f in formats` loop of lines 378-393: skip
records with `vcodec == "none"`, skip records whose height defaults to `0`,
insert a record with a fresh height at the end, and replace the kept record of
an existing height exactly when the new frame rate is strictly greater. -/
def insertFormat (acc : List (Int × Format)) (f : Format) : List (Int × Format) :=
  if f.vcodec == some "none" then acc
  else if heightOf f == 0 then acc
  else
    match lookupH (heightOf f) acc with
    | none => acc ++ [(heightOf f, f)]
    | some existing => if fpsOf f > fpsOf existing then updateH (heightOf f) f acc else acc

/-- The complete `unique_resolutions` dict after the scan of lines 377-393. -/
def uniqueResolutions (formats : List Format) : List (Int × Format) :=
  formats.foldl insertFormat []

/-- Left-justify a string to the given width with spaces, Python `s:<w`
format-spec padding (no truncation). -/
def padRight (s : String) (w : Nat) : String :=
  s ++ String.mk (List.replicate (w - s.length) ' ')

/-- Nearest integer, half to even, of a rational, written with integer
floor-division arithmetic so that it evaluates inside the kernel. -/
def halfEven (r : ℚ) : Int :=
  let n := r.num
  let d : Int := (r.den : Int)
  let m := Int.fdiv n d
  let rem := n - m * d
  if 2 * rem > d then m + 1
  else if 2 * rem == d then (if m % 2 == 0 then m else m + 1) else m

/-- Python `f"(filesize / (1024*1024)):.1f" + "MiB"` (braces elided, line
407): the byte count scaled to MiB and rounded to one decimal digit. -/
def fmtMiB (bytes : ℚ) : String :=
  let t := halfEven (bytes * 10 / 1048576)
  toString (t / 10) ++ "." ++ toString ((t % 10).natAbs) ++ "MiB"

/-- Python `str` of a frame-rate number: integral values print as integers. -/
def fpsStr (q : ℚ) : String :=
  if q.den == 1 then toString q.num else toString q

/-- Python line 407: `size_str` is the MiB rendering when the value of
`f.get("filesize") or f.get("filesize_approx")` is truthy, else `"N/A"`. -/
def sizeStr (f : Format) : String :=
  if (pySize f).getD 0 ≠ 0 then fmtMiB ((pySize f).getD 0) else "N/A"

/-- The display row string of line 409:
`f"(f_id):<5 | (res):<9 | (fps):<4 | (ext):<4 | 🎵:(audio_mark) | (size_str)"`
with braces elided, where `res` is `f"(width)x(height)"` of line 400 and
`audio_mark` is `"YES"`/`"NO "` of line 405. -/
def mkRowStr (height : Int) (f : Format) : String :=
  padRight (fmtId f) 5 ++ " | " ++
  padRight (toString (f.width.getD 0) ++ "x" ++ toString height) 9 ++ " | " ++
  padRight (fpsStr (fpsOf f)) 4 ++ " | " ++
  padRight (f.ext.getD "N/A") 4 ++ " | 🎵:" ++
  (if hasAudio f then "YES" else "NO ") ++ " | " ++
  sizeStr f

/-- One entry of `table_rows` (line 410): the rendered string, the height used
as the sort key, and the `format_id` used as the selection value. -/
structure Row where
  str : String
  height : Int
  value : String
deriving DecidableEq

/-- Build the `table_rows` entry for one kept `(height, f)` pair. -/
def mkRow (height : Int) (f : Format) : Row :=
  ⟨mkRowStr height f, height, fmtId f⟩

/-- Stable descending insertion by `height`: the new row goes in front of the
first row whose height is not strictly greater. -/
def insertRowDesc (r : Row) : List Row → List Row
  | [] => [r]
  | x :: xs => if x.height ≤ r.height then r :: x :: xs else x :: insertRowDesc r xs

/-- Stable sort of the rows, descending by `height`: the embedding of
`table_rows.sort(key=lambda x: x.height, reverse=True)` (line 412).  The kept
heights are pairwise distinct (proved below), so the output agrees with
Python's stable sort. -/
def sortRowsDesc : List Row → List Row
  | [] => []
  | r :: rest => insertRowDesc r (sortRowsDesc rest)

/-- The full format-selector pipeline of lines 377-412: deduplicate by height,
render each kept record in dict (insertion) order, then sort descending by
height. -/
def tableRows (formats : List Format) : List Row :=
  sortRowsDesc ((uniqueResolutions formats).map (fun p => mkRow p.1 p.2))

/-- A record passes the two `continue` filters of lines 379-381. -/
def keepF (f : Format) : Bool :=
  !(f.vcodec == some "none") && !(heightOf f == 0)

/-- The records of the input that survive the two filters and carry the given
height: the members of the `height` group of the scan. -/
def survivors (h : Int) (fs : List Format) : List Format :=
  fs.filter (fun f => keepF f && (heightOf f == h))

/-- The strict-improvement replacement step of lines 390-392: keep `best`
unless the newcomer's frame rate is strictly greater. -/
def stepF (best g : Format) : Format :=
  if fpsOf g > fpsOf best then g else best

/-- The record a left-to-right scan with `stepF` retains from a group. -/
def leader : List Format → Option Format
  | [] => none
  | f :: rest => some (rest.foldl stepF f)

/-- Character-list prefix test, the meaning of an anchored `re.match` against
a literal pattern. -/
def startsWithL : List Char → List Char → Bool
  | [], _ => true
  | _ :: _, [] => false
  | a :: as, b :: bs => a == b && startsWithL as bs

/-- The twelve literal strings denoted by the three anchored regexes of lines
163-167: `https?://(www\.)?` expands to four scheme/www alternatives per
host. -/
def urlPatterns : List String :=
  ["http://youtube.com/", "http://www.youtube.com/",
   "https://youtube.com/", "https://www.youtube.com/",
   "http://youtu.be/", "http://www.youtu.be/",
   "https://youtu.be/", "https://www.youtu.be/",
   "http://svtplay.se/", "http://www.svtplay.se/",
   "https://svtplay.se/", "https://www.svtplay.se/"]

/-- The URL classifier `is_valid_url` of lines 162-171: `re.match` anchors at
the start of the string, so the function returns `True` exactly when some
pattern alternative is a literal prefix of the input. -/
def is_valid_url (text : String) : Bool :=
  urlPatterns.any (fun p => startsWithL p.data text.data)

/-- Character-list substring test: Python's `sub in s` for strings. -/
def hasSubL (pat : List Char) : List Char → Bool
  | [] => pat.isEmpty
  | c :: t => startsWithL pat (c :: t) || hasSubL pat t

/-- Which handler the main loop calls for a URL. -/
inductive Site where
  | svt : Site
  | youtube : Site
deriving DecidableEq

/-- The dispatch of lines 555-560: `is_svt = "svtplay.se" in url`, then
`handle_svtplay` when the substring occurs anywhere, else `handle_youtube`. -/
def dispatchUrl (url : String) : Site :=
  if hasSubL "svtplay.se".data url.data then Site.svt else Site.youtube

/-- Python dict assignment `m[k] = b` for the `has_audio_map` dict (line 404):
overwrite in place when the key exists, append otherwise. -/
def dictInsertS (k : String) (b : Bool) : List (String × Bool) → List (String × Bool)
  | [] => [(k, b)]
  | (q, v) :: rest => if q = k then (q, b) :: rest else (q, v) :: dictInsertS k b rest

/-- Python `m.get(k)` on the `has_audio_map` dict. -/
def dictGetS (k : String) : List (String × Bool) → Option Bool
  | [] => none
  | (q, v) :: rest => if q = k then some v else dictGetS k rest

/-- The `has_audio_map` dict filled by the rendering loop of lines 398-404:
for each kept record, in dict order, `has_audio_map[f_id] = has_audio`. -/
def hasAudioMap (fs : List Format) : List (String × Bool) :=
  (uniqueResolutions fs).foldl (fun m p => dictInsertS (fmtId p.2) (hasAudio p.2) m) []

/-- The argument list assembled in lines 425-434 for the selected format
string: base flags, optional cookie flags, then the format/merge/output/url
arguments. -/
def ytdlpVideoCmd (cookieBrowser : Option String) (finalFormat : String) (url : String) :
    List String :=
  ["yt-dlp", "--force-overwrites", "--embed-metadata", "--embed-thumbnail"] ++
  (match cookieBrowser with
   | some b => ["--cookies-from-browser", b]
   | none => []) ++
  ["-f", finalFormat, "--merge-output-format", "mp4",
   "-o", "%(title)s-%(height)sp.%(ext)s", url]

/-- Lines 421-423: append `+bestaudio` to the chosen format id exactly when
`has_audio_map.get(format_code, False)` is falsy. -/
def finalFormatFor (fs : List Format) (formatCode : String) : String :=
  if (dictGetS formatCode (hasAudioMap fs)).getD false then formatCode
  else formatCode ++ "+bestaudio"

/-- The complete download command for a chosen format id (lines 421-434). -/
def videoDownloadCmd (fs : List Format) (cookieBrowser : Option String)
    (url formatCode : String) : List String :=
  ytdlpVideoCmd cookieBrowser (finalFormatFor fs formatCode) url

/-- Outcome of one `run_command` invocation plus the parse of its standard
output: `missing` models `run_command` returning `None` (the executable was
not found), `ran rc p` models a completed process with exit status `rc` whose
relevant output parsed to `p` (`none` = the JSON decode raised). -/
inductive FetchOutcome (α : Type) where
  | missing : FetchOutcome α
  | ran : Int → Option α → FetchOutcome α
deriving DecidableEq

/-- What the `Download video` branch does before any download: either it
returns without showing anything (and without printing any message), or it
offers the rendered format list to the user. -/
inductive FmtStepResult where
  | aborted : FmtStepResult
  | shown : List Row → FmtStepResult
deriving DecidableEq

/-- The control flow of lines 362-416 around the `yt-dlp -J` fetch: `if not
res_fmt: return` aborts only when the executable was missing, the bare
`except: return` aborts on a failed parse, and otherwise the format list is
rendered and shown.  The exit status is never consulted, and neither abort
prints a message. -/
def downloadVideoStep : FetchOutcome (List Format) → FmtStepResult
  | FetchOutcome.missing => FmtStepResult.aborted
  | FetchOutcome.ran _ none => FmtStepResult.aborted
  | FetchOutcome.ran _ (some formats) => FmtStepResult.shown (tableRows formats)

/-- The fields of the first-line info JSON that `handle_youtube` reads. -/
structure VideoInfo where
  title : Option String := none
  isPlaylist : Bool := false
deriving DecidableEq

/-- The guard of lines 280-291 on the initial `--dump-json` fetch: the
handler prints an error and returns (before any menu) exactly when the
process was missing, exited nonzero, or its first line failed to parse. -/
def infoFetchAborts : FetchOutcome VideoInfo → Bool
  | FetchOutcome.missing => true
  | FetchOutcome.ran rc parsed => rc != 0 || parsed.isNone

/-- Modelled from the spec: the size of a record whose spec sentence calls a
size "available (exact or approximate)" — the exact size when the field is
present, else the approximate one. -/
def availSize (f : Format) : Option ℚ :=
  match f.filesize with
  | some v => some v
  | none => f.filesize_approx

/-- Modelled from the spec: the row renderer as C8 words it — the same six
fixed-width fields, with the size field showing the MiB rendering whenever a
size (exact or approximate) is available, and `"N/A"` otherwise. -/
def specRowStr (height : Int) (f : Format) : String :=
  padRight (fmtId f) 5 ++ " | " ++
  padRight (toString (f.width.getD 0) ++ "x" ++ toString height) 9 ++ " | " ++
  padRight (fpsStr (fpsOf f)) 4 ++ " | " ++
  padRight (f.ext.getD "N/A") 4 ++ " | 🎵:" ++
  (if hasAudio f then "YES" else "NO ") ++ " | " ++
  (match availSize f with
   | some v => fmtMiB v
   | none => "N/A")

/-- First present-and-nonzero value in the list, the combined truthiness of a
chain of Python `or`s over optional numbers. -/
def firstNonzero : List (Option ℚ) → Option ℚ
  | [] => none
  | none :: rest => firstNonzero rest
  | some v :: rest => if v ≠ 0 then some v else firstNonzero rest

/-- The amended spec-side renderer: as `specRowStr`, but the size field shows
the MiB rendering only when a nonzero size (exact, else approximate) is
present, matching the truthiness test the code actually performs. -/
def specRowStrAmended (height : Int) (f : Format) : String :=
  padRight (fmtId f) 5 ++ " | " ++
  padRight (toString (f.width.getD 0) ++ "x" ++ toString height) 9 ++ " | " ++
  padRight (fpsStr (fpsOf f)) 4 ++ " | " ++
  padRight (f.ext.getD "N/A") 4 ++ " | 🎵:" ++
  (if hasAudio f then "YES" else "NO ") ++ " | " ++
  (match firstNonzero [f.filesize, f.filesize_approx] with
   | some v => fmtMiB v
   | none => "N/A")

/-- A 360p/30fps video-only descriptor used in concrete witnesses. -/
def demo30 : Format :=
  { format_id := some "134", width := some 640, height := some 360, fps := some 30,
    vcodec := some "avc1", acodec := some "none", ext := some "mp4",
    filesize := some 1048576 }

/-- A 360p/60fps descriptor with audio used in concrete witnesses. -/
def demo60 : Format :=
  { format_id := some "135", width := some 640, height := some 360, fps := some 60,
    vcodec := some "avc1", acodec := some "mp4a", ext := some "mp4" }

/-- A 720p descriptor used in concrete witnesses. -/
def demo720 : Format :=
  { format_id := some "136", width := some 1280, height := some 720, fps := some 30,
    vcodec := some "avc1", acodec := some "none", ext := some "mp4" }

/-- An audio-only descriptor (no video track) used in concrete witnesses. -/
def demoAudio : Format :=
  { format_id := some "140", vcodec := some "none", acodec := some "mp4a",
    ext := some "m4a" }

/-- A descriptor carrying an exact file size of zero bytes, the input on which
the code's truthiness test and the spec's availability wording disagree. -/
def demoZeroSize : Format :=
  { format_id := some "137", width := some 640, height := some 360, fps := some 30,
    vcodec := some "avc1", acodec := some "none", ext := some "mp4",
    filesize := some 0 }

/-- A descriptor with no height field at all, used in concrete witnesses. -/
def demoNoHeight : Format :=
  { format_id := some "138", vcodec := some "avc1", acodec := some "none" }

/-- A 360p descriptor with no fps field, used in concrete witnesses. -/
def demoNoFps : Format :=
  { format_id := some "139", width := some 640, height := some 360,
    vcodec := some "avc1", acodec := some "none", ext := some "mp4" }

/-! ### Association-list lemmas for the `unique_resolutions` dict -/

theorem lookupH_append (h : Int) (l₁ l₂ : List (Int × Format)) :
    lookupH h (l₁ ++ l₂) =
      match lookupH h l₁ with
      | some v => some v
      | none => lookupH h l₂ := by
  induction l₁ with
  | nil => rfl
  | cons p rest ih =>
    obtain ⟨k, v⟩ := p
    by_cases hk : k = h <;> simp [lookupH, hk, ih]

theorem lookupH_updateH_self (h : Int) (f : Format) (l : List (Int × Format)) :
    lookupH h (updateH h f l) = (lookupH h l).map (fun _ => f) := by
  induction l with
  | nil => rfl
  | cons p rest ih =>
    obtain ⟨k, v⟩ := p
    by_cases hk : k = h <;> simp [lookupH, updateH, hk, ih]

theorem lookupH_updateH_ne (h h' : Int) (f : Format) (l : List (Int × Format))
    (hne : h ≠ h') : lookupH h' (updateH h f l) = lookupH h' l := by
  induction l with
  | nil => rfl
  | cons p rest ih =>
    obtain ⟨k, v⟩ := p
    by_cases hk : k = h
    · subst hk
      simp [lookupH, updateH, hne, ih]
    · by_cases hk' : k = h' <;> simp [lookupH, updateH, hk, hk', ih, Ne.symm hne]

theorem lookupH_eq_none_iff (h : Int) (l : List (Int × Format)) :
    lookupH h l = none ↔ ∀ p ∈ l, p.1 ≠ h := by
  induction l with
  | nil => simp [lookupH]
  | cons p rest ih =>
    obtain ⟨k, v⟩ := p
    by_cases hk : k = h
    · subst hk; simp [lookupH]
    · simp [lookupH, hk, ih]

theorem updateH_keys (h : Int) (f : Format) (l : List (Int × Format)) :
    (updateH h f l).map Prod.fst = l.map Prod.fst := by
  induction l with
  | nil => rfl
  | cons p rest ih =>
    obtain ⟨k, v⟩ := p
    by_cases hk : k = h <;> simp [updateH, hk, ih]

/-! ### Characterization of one scan step and of the whole scan -/

theorem lookupH_insertFormat (acc : List (Int × Format)) (f : Format) (h : Int) :
    lookupH h (insertFormat acc f) =
      if keepF f && (heightOf f == h) then
        match lookupH h acc with
        | none => some f
        | some e => some (stepF e f)
      else lookupH h acc := by
  by_cases hv : f.vcodec = some "none"
  · simp [insertFormat, keepF, hv]
  · by_cases hh : heightOf f = 0
    · simp [insertFormat, keepF, hv, hh]
    · by_cases hfh : heightOf f = h
      · subst hfh
        cases hl : lookupH (heightOf f) acc with
        | none =>
          simp [insertFormat, keepF, hv, hh, hl, lookupH_append, lookupH]
        | some e =>
          by_cases hgt : fpsOf f > fpsOf e
          · simp [insertFormat, keepF, hv, hh, hl, hgt, stepF, lookupH_updateH_self]
          · simp [insertFormat, keepF, hv, hh, hl, hgt, stepF]
      · cases hl : lookupH (heightOf f) acc with
        | none =>
          cases hl2 : lookupH h acc with
          | none =>
            simp [insertFormat, keepF, hv, hh, hfh, hl, hl2, lookupH_append, lookupH,
              Ne.symm hfh]
          | some e2 =>
            simp [insertFormat, keepF, hv, hh, hfh, hl, hl2, lookupH_append, lookupH]
        | some e =>
          by_cases hgt : fpsOf f > fpsOf e
          · simp [insertFormat, keepF, hv, hh, hfh, hl, hgt,
              lookupH_updateH_ne (heightOf f) h f acc hfh]
          · simp [insertFormat, keepF, hv, hh, hfh, hl, hgt]

theorem survivors_append (h : Int) (a b : List Format) :
    survivors h (a ++ b) = survivors h a ++ survivors h b := by
  simp [survivors, List.filter_append]

theorem survivors_singleton (h : Int) (f : Format) :
    survivors h [f] = if keepF f && (heightOf f == h) then [f] else [] := by
  by_cases hp : (keepF f && (heightOf f == h)) = true <;>
    simp [survivors, List.filter, hp]

theorem leader_append_singleton (fs : List Format) (g : Format) :
    leader (fs ++ [g]) =
      match leader fs with
      | none => some g
      | some b => some (stepF b g) := by
  cases fs with
  | nil => rfl
  | cons a t => simp [leader, List.foldl_append]

theorem foldl_insertFormat_lookup (fs : List Format) :
    ∀ (acc : List (Int × Format)) (pre : List Format),
      (∀ h, lookupH h acc = leader (survivors h pre)) →
      ∀ h, lookupH h (fs.foldl insertFormat acc) = leader (survivors h (pre ++ fs)) := by
  induction fs with
  | nil =>
    intro acc pre hinv h
    simpa using hinv h
  | cons f rest ih =>
    intro acc pre hinv h
    have hstep : ∀ h', lookupH h' (insertFormat acc f) =
        leader (survivors h' (pre ++ [f])) := by
      intro h'
      by_cases hc : (keepF f && (heightOf f == h')) = true
      · rw [lookupH_insertFormat, if_pos hc, survivors_append, survivors_singleton,
          if_pos hc, leader_append_singleton, hinv h']
      · rw [lookupH_insertFormat, if_neg hc, survivors_append, survivors_singleton,
          if_neg hc, List.append_nil, hinv h']
    have hmain := ih (insertFormat acc f) (pre ++ [f]) hstep h
    rw [List.foldl_cons]
    rw [hmain, List.append_assoc]
    rfl

theorem lookupH_uniqueResolutions (fs : List Format) (h : Int) :
    lookupH h (uniqueResolutions fs) = leader (survivors h fs) := by
  have hmain := foldl_insertFormat_lookup fs [] [] (fun h' => rfl) h
  simpa using hmain

/-! ### The record a scan of a group retains: membership, maximality,
first-seen tie-break -/

theorem le_stepF_left (b g : Format) : fpsOf b ≤ fpsOf (stepF b g) := by
  unfold stepF
  by_cases h : fpsOf g > fpsOf b
  · rw [if_pos h]; exact le_of_lt h
  · rw [if_neg h]

theorem le_stepF_right (b g : Format) : fpsOf g ≤ fpsOf (stepF b g) := by
  unfold stepF
  by_cases h : fpsOf g > fpsOf b
  · rw [if_pos h]
  · rw [if_neg h]; exact le_of_not_lt h

theorem foldl_stepF_mem (rest : List Format) :
    ∀ f : Format, rest.foldl stepF f ∈ f :: rest := by
  induction rest with
  | nil => intro f; simp
  | cons g t ih =>
    intro f
    rcases List.mem_cons.1 (ih (stepF f g)) with h | h
    · have h2 : stepF f g = f ∨ stepF f g = g := by
        unfold stepF; split <;> simp
      rcases h2 with h2 | h2
      · rw [List.foldl_cons, h, h2]
        exact List.mem_cons_self _ _
      · rw [List.foldl_cons, h, h2]
        exact List.mem_cons_of_mem _ (List.mem_cons_self _ _)
    · simp only [List.foldl_cons]
      exact List.mem_cons_of_mem _ (List.mem_cons_of_mem _ h)

theorem foldl_stepF_seed_le (rest : List Format) :
    ∀ f : Format, fpsOf f ≤ fpsOf (rest.foldl stepF f) := by
  induction rest with
  | nil => intro f; exact le_refl _
  | cons g t ih =>
    intro f
    simp only [List.foldl_cons]
    exact le_trans (le_stepF_left f g) (ih (stepF f g))

theorem foldl_stepF_ub (rest : List Format) :
    ∀ f : Format, ∀ g ∈ f :: rest, fpsOf g ≤ fpsOf (rest.foldl stepF f) := by
  induction rest with
  | nil =>
    intro f g hg
    have hgf : g = f := by simpa using hg
    subst hgf; exact le_refl _
  | cons a t ih =>
    intro f g hg
    simp only [List.foldl_cons]
    rcases List.mem_cons.1 hg with h | h
    · subst h
      exact le_trans (le_stepF_left g a) (foldl_stepF_seed_le t (stepF g a))
    · rcases List.mem_cons.1 h with h2 | h2
      · subst h2
        exact le_trans (le_stepF_right f g) (foldl_stepF_seed_le t (stepF f g))
      · exact ih (stepF f a) g (List.mem_cons_of_mem _ h2)

theorem foldl_stepF_first (rest : List Format) :
    ∀ f : Format,
      (f :: rest).find? (fun g => decide (fpsOf (rest.foldl stepF f) ≤ fpsOf g)) =
        some (rest.foldl stepF f) := by
  induction rest with
  | nil =>
    intro f
    simp [List.find?]
  | cons a t ih =>
    intro f
    simp only [List.foldl_cons]
    by_cases hgt : fpsOf f < fpsOf a
    · have hstep : stepF f a = a := by unfold stepF; rw [if_pos hgt]
      simp only [hstep]
      have hb : fpsOf a ≤ fpsOf (t.foldl stepF a) := foldl_stepF_seed_le t a
      have hpf : decide (fpsOf (t.foldl stepF a) ≤ fpsOf f) = false := by
        simp only [decide_eq_false_iff_not]
        exact not_le.2 (lt_of_lt_of_le hgt hb)
      rw [List.find?_cons]
      simp only [hpf]
      exact ih a
    · have hstep : stepF f a = f := by unfold stepF; rw [if_neg hgt]
      simp only [hstep]
      have hIH := ih f
      by_cases hpf : fpsOf (t.foldl stepF f) ≤ fpsOf f
      · have hf : decide (fpsOf (t.foldl stepF f) ≤ fpsOf f) = true := by
          simp [hpf]
        simp only [List.find?_cons, hf] at hIH
        rw [List.find?_cons]
        simp only [hf]
        exact hIH
      · have hf : decide (fpsOf (t.foldl stepF f) ≤ fpsOf f) = false := by
          simp [hpf]
        have hfa : decide (fpsOf (t.foldl stepF f) ≤ fpsOf a) = false := by
          simp only [decide_eq_false_iff_not]
          exact not_le.2 (lt_of_le_of_lt (le_of_not_lt hgt) (lt_of_not_le hpf))
        simp only [List.find?_cons, hf] at hIH
        rw [List.find?_cons]
        simp only [hf, List.find?_cons, hfa]
        exact hIH

/-! ### The kept heights are pairwise distinct -/

theorem keysPairwise_insertFormat (acc : List (Int × Format)) (f : Format)
    (hp : acc.Pairwise (fun p q => p.1 ≠ q.1)) :
    (insertFormat acc f).Pairwise (fun p q => p.1 ≠ q.1) := by
  unfold insertFormat
  split
  · exact hp
  · split
    · exact hp
    · split
      · rename_i heq
        rw [List.pairwise_append]
        refine ⟨hp, List.pairwise_singleton _ _, ?_⟩
        intro a ha b hb
        have hb2 : b = (heightOf f, f) := by simpa using hb
        subst hb2
        exact (lookupH_eq_none_iff (heightOf f) acc).1 heq a ha
      · split
        · have h2 : ((updateH (heightOf f) f acc).map Prod.fst).Pairwise Ne := by
            rw [updateH_keys]
            exact List.pairwise_map.2 hp
          exact List.pairwise_map.1 h2
        · exact hp

theorem keysPairwise_uniqueResolutions (fs : List Format) :
    (uniqueResolutions fs).Pairwise (fun p q => p.1 ≠ q.1) := by
  have main : ∀ (l : List Format) (acc : List (Int × Format)),
      acc.Pairwise (fun p q => p.1 ≠ q.1) →
      (l.foldl insertFormat acc).Pairwise (fun p q => p.1 ≠ q.1) := by
    intro l
    induction l with
    | nil => intro acc h; exact h
    | cons f rest ih =>
      intro acc h
      exact ih _ (keysPairwise_insertFormat acc f h)
  exact main fs [] List.Pairwise.nil

/-! ### The descending sort: permutation and sortedness -/

theorem insertRowDesc_perm (r : Row) (l : List Row) :
    (insertRowDesc r l).Perm (r :: l) := by
  induction l with
  | nil => exact List.Perm.refl _
  | cons x xs ih =>
    unfold insertRowDesc
    split
    · exact List.Perm.refl _
    · exact (List.Perm.cons x ih).trans (List.Perm.swap r x xs)

theorem sortRowsDesc_perm (l : List Row) : (sortRowsDesc l).Perm l := by
  induction l with
  | nil => exact List.Perm.refl _
  | cons r rest ih =>
    exact (insertRowDesc_perm r (sortRowsDesc rest)).trans (List.Perm.cons r ih)

theorem insertRowDesc_sorted (r : Row) (l : List Row)
    (hs : l.Pairwise (fun a b => b.height ≤ a.height)) :
    (insertRowDesc r l).Pairwise (fun a b => b.height ≤ a.height) := by
  induction l with
  | nil => exact List.pairwise_singleton _ _
  | cons x xs ih =>
    rcases List.pairwise_cons.1 hs with ⟨hx, hxs⟩
    unfold insertRowDesc
    split
    · rename_i hle
      refine List.pairwise_cons.2 ⟨?_, hs⟩
      intro y hy
      rcases List.mem_cons.1 hy with h | h
      · subst h; exact hle
      · exact le_trans (hx y h) hle
    · rename_i hgt
      refine List.pairwise_cons.2 ⟨?_, ih hxs⟩
      intro y hy
      have hy2 : y = r ∨ y ∈ xs := by
        have hmem := (insertRowDesc_perm r xs).mem_iff.1 hy
        simpa using hmem
      rcases hy2 with h | h
      · subst h; exact le_of_not_le hgt
      · exact hx y h

theorem sortRowsDesc_sorted (l : List Row) :
    (sortRowsDesc l).Pairwise (fun a b => b.height ≤ a.height) := by
  induction l with
  | nil => exact List.Pairwise.nil
  | cons r rest ih => exact insertRowDesc_sorted r _ ih

/-! ### Facts about the final row list -/

theorem tableRows_perm (fs : List Format) :
    (tableRows fs).Perm ((uniqueResolutions fs).map (fun p => mkRow p.1 p.2)) :=
  sortRowsDesc_perm _

theorem tableRows_height_ne (fs : List Format) :
    (tableRows fs).Pairwise (fun a b => a.height ≠ b.height) := by
  have h0 : (((uniqueResolutions fs).map (fun p => mkRow p.1 p.2))).Pairwise
      (fun a b => a.height ≠ b.height) := by
    refine List.pairwise_map.2 ?_
    exact (keysPairwise_uniqueResolutions fs).imp (fun h => h)
  exact ((tableRows_perm fs).pairwise_iff (fun h => Ne.symm h)).2 h0

/-! ### The `has_audio_map` dict -/

theorem dictGetS_dictInsertS_self (k : String) (b : Bool) (m : List (String × Bool)) :
    dictGetS k (dictInsertS k b m) = some b := by
  induction m with
  | nil => simp [dictInsertS, dictGetS]
  | cons p rest ih =>
    obtain ⟨q, v⟩ := p
    by_cases hq : q = k <;> simp [dictInsertS, dictGetS, hq, ih]

theorem dictGetS_dictInsertS_ne (k k' : String) (b : Bool) (m : List (String × Bool))
    (hne : k ≠ k') : dictGetS k' (dictInsertS k b m) = dictGetS k' m := by
  induction m with
  | nil => simp [dictInsertS, dictGetS, hne]
  | cons p rest ih =>
    obtain ⟨q, v⟩ := p
    by_cases hq : q = k
    · subst hq
      simp [dictInsertS, dictGetS, hne, ih]
    · by_cases hq' : q = k' <;> simp [dictInsertS, dictGetS, hq, hq', ih, Ne.symm hne]

theorem dictGetS_foldl_notin (l : List (Int × Format)) :
    ∀ (m : List (String × Bool)) (k : String),
      (∀ p ∈ l, fmtId p.2 ≠ k) →
      dictGetS k (l.foldl (fun m p => dictInsertS (fmtId p.2) (hasAudio p.2) m) m) =
        dictGetS k m := by
  induction l with
  | nil => intro m k _; rfl
  | cons q rest ih =>
    intro m k hk
    rw [List.foldl_cons]
    rw [ih _ k (fun p hp => hk p (List.mem_cons_of_mem _ hp))]
    exact dictGetS_dictInsertS_ne _ _ _ _ (hk q (List.mem_cons_self _ _))

theorem dictGetS_hasAudioMap_aux (l : List (Int × Format)) :
    ∀ m : List (String × Bool),
      l.Pairwise (fun p q => fmtId p.2 ≠ fmtId q.2) →
      ∀ p ∈ l,
        dictGetS (fmtId p.2)
            (l.foldl (fun m p => dictInsertS (fmtId p.2) (hasAudio p.2) m) m) =
          some (hasAudio p.2) := by
  induction l with
  | nil =>
    intro m _ p hp
    simp at hp
  | cons q rest ih =>
    intro m hpw p hp
    rcases List.pairwise_cons.1 hpw with ⟨hq, hrest⟩
    rw [List.foldl_cons]
    rcases List.mem_cons.1 hp with h | h
    · subst h
      rw [dictGetS_foldl_notin rest _ _ (fun r hr => Ne.symm (hq r hr))]
      exact dictGetS_dictInsertS_self _ _ _
    · exact ih _ hrest p h

theorem dictGetS_hasAudioMap (fs : List Format) (h : Int) (f : Format)
    (hmem : (h, f) ∈ uniqueResolutions fs)
    (hids : (uniqueResolutions fs).Pairwise (fun p q => fmtId p.2 ≠ fmtId q.2)) :
    dictGetS (fmtId f) (hasAudioMap fs) = some (hasAudio f) := by
  have hmain := dictGetS_hasAudioMap_aux (uniqueResolutions fs) [] hids (h, f) hmem
  simpa [hasAudioMap] using hmain

/-! ### Anchored prefix matching and substring search -/

theorem startsWithL_iff (p : List Char) :
    ∀ s : List Char, startsWithL p s = true ↔ ∃ r, s = p ++ r := by
  induction p with
  | nil => intro s; simp [startsWithL]
  | cons a as ih =>
    intro s
    cases s with
    | nil => simp [startsWithL]
    | cons b bs =>
      simp only [startsWithL, Bool.and_eq_true, beq_iff_eq]
      constructor
      · rintro ⟨hab, hs⟩
        subst hab
        rcases (ih bs).1 hs with ⟨r, hr⟩
        exact ⟨r, by rw [hr]; rfl⟩
      · rintro ⟨r, hr⟩
        rw [List.cons_append] at hr
        injection hr with h1 h2
        exact ⟨h1.symm, (ih bs).2 ⟨r, h2⟩⟩

theorem hasSubL_iff (pat : List Char) :
    ∀ s : List Char, hasSubL pat s = true ↔ ∃ pre post, s = pre ++ pat ++ post := by
  intro s
  induction s with
  | nil =>
    simp only [hasSubL]
    constructor
    · intro hemp
      have hp : pat = [] := by simpa [List.isEmpty_iff] using hemp
      exact ⟨[], [], by simp [hp]⟩
    · rintro ⟨pre, post, hp⟩
      rcases List.append_eq_nil.1 hp.symm with ⟨h1, h2⟩
      rcases List.append_eq_nil.1 h1 with ⟨h3, h4⟩
      simp [List.isEmpty_iff, h4]
  | cons c t iht =>
    simp only [hasSubL, Bool.or_eq_true]
    constructor
    · rintro (h | h)
      · rcases (startsWithL_iff pat (c :: t)).1 h with ⟨r, hr⟩
        exact ⟨[], r, by simpa using hr⟩
      · rcases iht.1 h with ⟨pre, post, hp⟩
        exact ⟨c :: pre, post, by simp [hp]⟩
    · rintro ⟨pre, post, hp⟩
      cases pre with
      | nil =>
        left
        exact (startsWithL_iff pat (c :: t)).2 ⟨post, by simpa using hp⟩
      | cons d ds =>
        right
        rw [List.cons_append, List.cons_append] at hp
        injection hp with h1 h2
        exact iht.2 ⟨ds, post, h2⟩

/-! ### Renderer equalities -/

theorem sizeStr_eq_firstNonzero (f : Format) :
    sizeStr f =
      (match firstNonzero [f.filesize, f.filesize_approx] with
       | some v => fmtMiB v
       | none => "N/A") := by
  rcases hfs : f.filesize with _ | v
  · rcases hfa : f.filesize_approx with _ | w
    · simp [sizeStr, pySize, firstNonzero, hfs, hfa]
    · by_cases hw : w = 0 <;> simp [sizeStr, pySize, firstNonzero, hfs, hfa, hw]
  · by_cases hv : v = 0
    · subst hv
      rcases hfa : f.filesize_approx with _ | w
      · simp [sizeStr, pySize, firstNonzero, hfs, hfa]
      · by_cases hw : w = 0 <;> simp [sizeStr, pySize, firstNonzero, hfs, hfa, hw]
    · simp [sizeStr, pySize, firstNonzero, hfs, hv]

theorem mkRowStr_eq_specAmended (h : Int) (f : Format) :
    mkRowStr h f = specRowStrAmended h f := by
  unfold mkRowStr specRowStrAmended
  rw [sizeStr_eq_firstNonzero]

theorem mem_tableRows (fs : List Format) (r : Row) (hr : r ∈ tableRows fs) :
    ∃ p, p ∈ uniqueResolutions fs ∧ r = mkRow p.1 p.2 := by
  have hm := (tableRows_perm fs).mem_iff.1 hr
  rcases List.mem_map.1 hm with ⟨p, hp, he⟩
  exact ⟨p, hp, he.symm⟩

/-! ### The claims -/

/-- Claim C1: for every input list of format descriptors, the format selector
retains at most one record per distinct height value — the output rows never
contain two rows with the same height (hence the same resolution). -/
theorem selector_heights_unique (fs : List Format) :
    (tableRows fs).Pairwise (fun a b => a.height ≠ b.height) :=
  tableRows_height_ne fs

/-- Claim C2: for every height present in the selector's output, the kept
record is a survivor of that height whose frame rate is maximal among the
survivors, and it is the first record of the left-to-right scan attaining
that maximum (a later record displaces the kept one only on a strictly
greater frame rate). -/
theorem selector_keeps_max_fps_first_seen (fs : List Format) (h : Int) (f : Format)
    (hk : lookupH h (uniqueResolutions fs) = some f) :
    f ∈ survivors h fs ∧
    (∀ g ∈ survivors h fs, fpsOf g ≤ fpsOf f) ∧
    (survivors h fs).find? (fun g => decide (fpsOf f ≤ fpsOf g)) = some f := by
  rw [lookupH_uniqueResolutions] at hk
  cases hsv : survivors h fs with
  | nil =>
    rw [hsv] at hk
    simp [leader] at hk
  | cons a t =>
    rw [hsv] at hk
    have hf : f = t.foldl stepF a := by
      simpa [leader] using hk.symm
    subst hf
    exact ⟨foldl_stepF_mem t a, fun g hg => foldl_stepF_ub t a g hg, foldl_stepF_first t a⟩

/-- Witness for C2 at a concrete input: of two 360p descriptors with frame
rates 30 and 60, the 60 fps one is the kept record, is maximal, and is the
first survivor attaining the maximum. -/
theorem selector_keeps_max_fps_first_seen_witness :
    lookupH 360 (uniqueResolutions [demo30, demo60]) = some demo60 ∧
    (demo60 ∈ survivors 360 [demo30, demo60] ∧
     (∀ g ∈ survivors 360 [demo30, demo60], fpsOf g ≤ fpsOf demo60) ∧
     (survivors 360 [demo30, demo60]).find?
       (fun g => decide (fpsOf demo60 ≤ fpsOf g)) = some demo60) :=
  ⟨by decide, selector_keeps_max_fps_first_seen [demo30, demo60] 360 demo60 (by decide)⟩

/-- Claim C3: the selector's output rows are strictly descending by height. -/
theorem selector_rows_strictly_descending (fs : List Format) :
    (tableRows fs).Pairwise (fun a b => b.height < a.height) := by
  have h1 : (tableRows fs).Pairwise (fun a b => b.height ≤ a.height) := by
    unfold tableRows
    exact sortRowsDesc_sorted _
  have h2 := tableRows_height_ne fs
  exact (h1.and h2).imp (fun hab => lt_of_le_of_ne hab.1 (Ne.symm hab.2))

/-- Claim C4: no descriptor with `vcodec == "none"` and no descriptor whose
height is zero (or missing) is ever kept by the selector; every kept record
carries the nonzero height it is stored under. -/
theorem selector_excludes_videoless_and_zero_height (fs : List Format) (h : Int)
    (f : Format) (hk : lookupH h (uniqueResolutions fs) = some f) :
    f.vcodec ≠ some "none" ∧ f.height = some h ∧ h ≠ 0 := by
  rw [lookupH_uniqueResolutions] at hk
  cases hsv : survivors h fs with
  | nil =>
    rw [hsv] at hk
    simp [leader] at hk
  | cons a t =>
    rw [hsv] at hk
    have hf : f = t.foldl stepF a := by
      simpa [leader] using hk.symm
    subst hf
    have hmem : t.foldl stepF a ∈ survivors h fs := by
      rw [hsv]; exact foldl_stepF_mem t a
    simp only [survivors] at hmem
    have hpred := List.of_mem_filter hmem
    simp only [Bool.and_eq_true, keepF, Bool.not_eq_true', beq_iff_eq,
      beq_eq_false_iff_ne] at hpred
    obtain ⟨⟨hv, hh0⟩, hhh⟩ := hpred
    have hne : h ≠ 0 := by rw [← hhh]; exact hh0
    refine ⟨hv, ?_, hne⟩
    cases hx : (t.foldl stepF a).height with
    | none =>
      exfalso
      apply hne
      rw [← hhh]
      simp [heightOf, hx]
    | some x =>
      have hx2 : x = h := by
        rw [heightOf, hx] at hhh
        simpa using hhh
      rw [hx2]

/-- Witness for C4 at a concrete input: the kept 360p record has a video
codec, records the height it is stored under, and that height is nonzero. -/
theorem selector_excludes_videoless_and_zero_height_witness :
    demo30.vcodec ≠ some "none" ∧ demo30.height = some 360 ∧ (360 : Int) ≠ 0 :=
  selector_excludes_videoless_and_zero_height [demoAudio, demo30] 360 demo30 (by decide)

/-- Claim C10: the selector is total on descriptors with missing or null
fields — a missing or zero height means the record is dropped unchanged, and
a missing fps is read as frame rate 0, so such a record never displaces an
already-kept same-height record with positive frame rate. -/
theorem selector_total_on_missing_fields :
    (∀ (acc : List (Int × Format)) (f : Format),
       f.height = none ∨ f.height = some 0 → insertFormat acc f = acc) ∧
    (∀ f : Format, f.fps = none → fpsOf f = 0) ∧
    (∀ (acc : List (Int × Format)) (f e : Format),
       f.fps = none → lookupH (heightOf f) acc = some e → 0 < fpsOf e →
       insertFormat acc f = acc) := by
  refine ⟨?_, ?_, ?_⟩
  · intro acc f hf
    have h0 : heightOf f = 0 := by
      rcases hf with h | h <;> simp [heightOf, h]
    unfold insertFormat
    split
    · rfl
    · rw [h0]
      simp
  · intro f hf
    simp [fpsOf, hf]
  · intro acc f e hfps hl hpos
    unfold insertFormat
    split
    · rfl
    · split
      · rfl
      · rw [hl]
        have hfz : fpsOf f = 0 := by simp [fpsOf, hfps]
        have hnot : ¬ (fpsOf f > fpsOf e) := by
          rw [hfz]
          exact not_lt.2 (le_of_lt hpos)
        show (if fpsOf f > fpsOf e then updateH (heightOf f) f acc else acc) = acc
        exact if_neg hnot

/-- Witness for C10 at concrete inputs: a record with no height field is
dropped, a record with no fps field has frame rate 0, and such a record does
not displace a kept 60 fps record of the same height. -/
theorem selector_total_on_missing_fields_witness :
    insertFormat [] demoNoHeight = [] ∧
    fpsOf demoNoFps = 0 ∧
    insertFormat [(360, demo60)] demoNoFps = [(360, demo60)] :=
  ⟨selector_total_on_missing_fields.1 [] demoNoHeight (Or.inl rfl),
   selector_total_on_missing_fields.2.1 demoNoFps rfl,
   selector_total_on_missing_fields.2.2 [(360, demo60)] demoNoFps demo60 rfl
     (by decide) (by decide)⟩

/-- Claim C5: the download command built for a selected kept record whose
`acodec` is `"none"` carries the format id with `+bestaudio` appended as the
`-f` argument; for a kept record with some other `acodec` value nothing is
appended.  (The format ids of the kept records are assumed pairwise distinct,
since the command consults the id-keyed `has_audio_map`.) -/
theorem bestaudio_appended_iff_no_audio (fs : List Format) (cb : Option String)
    (url : String) (h : Int) (f : Format)
    (hmem : (h, f) ∈ uniqueResolutions fs)
    (hids : (uniqueResolutions fs).Pairwise (fun p q => fmtId p.2 ≠ fmtId q.2)) :
    (f.acodec = some "none" →
       videoDownloadCmd fs cb url (fmtId f) =
         ytdlpVideoCmd cb (fmtId f ++ "+bestaudio") url ∧
       ∃ l₁ l₂, videoDownloadCmd fs cb url (fmtId f) =
         l₁ ++ ["-f", fmtId f ++ "+bestaudio"] ++ l₂) ∧
    (∀ s : String, f.acodec = some s → s ≠ "none" →
       videoDownloadCmd fs cb url (fmtId f) = ytdlpVideoCmd cb (fmtId f) url ∧
       ∃ l₁ l₂, videoDownloadCmd fs cb url (fmtId f) = l₁ ++ ["-f", fmtId f] ++ l₂) := by
  have hget := dictGetS_hasAudioMap fs h f hmem hids
  constructor
  · intro hac
    have hna : hasAudio f = false := by simp [hasAudio, hac]
    have hcmd : videoDownloadCmd fs cb url (fmtId f) =
        ytdlpVideoCmd cb (fmtId f ++ "+bestaudio") url := by
      unfold videoDownloadCmd finalFormatFor
      rw [hget, hna]
      rfl
    refine ⟨hcmd, ?_⟩
    rw [hcmd]
    unfold ytdlpVideoCmd
    cases cb with
    | none =>
      exact ⟨["yt-dlp", "--force-overwrites", "--embed-metadata", "--embed-thumbnail"],
        ["--merge-output-format", "mp4", "-o", "%(title)s-%(height)sp.%(ext)s", url],
        by simp⟩
    | some b =>
      exact ⟨["yt-dlp", "--force-overwrites", "--embed-metadata", "--embed-thumbnail",
        "--cookies-from-browser", b],
        ["--merge-output-format", "mp4", "-o", "%(title)s-%(height)sp.%(ext)s", url],
        by simp⟩
  · intro s hac hs
    have hya : hasAudio f = true := by simp [hasAudio, hac, hs]
    have hcmd : videoDownloadCmd fs cb url (fmtId f) = ytdlpVideoCmd cb (fmtId f) url := by
      unfold videoDownloadCmd finalFormatFor
      rw [hget, hya]
      rfl
    refine ⟨hcmd, ?_⟩
    rw [hcmd]
    unfold ytdlpVideoCmd
    cases cb with
    | none =>
      exact ⟨["yt-dlp", "--force-overwrites", "--embed-metadata", "--embed-thumbnail"],
        ["--merge-output-format", "mp4", "-o", "%(title)s-%(height)sp.%(ext)s", url],
        by simp⟩
    | some b =>
      exact ⟨["yt-dlp", "--force-overwrites", "--embed-metadata", "--embed-thumbnail",
        "--cookies-from-browser", b],
        ["--merge-output-format", "mp4", "-o", "%(title)s-%(height)sp.%(ext)s", url],
        by simp⟩

/-- Witness for C5 at a concrete input: the kept audio-less 360p record gets
`+bestaudio` appended in the built command. -/
theorem bestaudio_appended_iff_no_audio_witness :
    videoDownloadCmd [demo30, demo720] none "https://youtu.be/x" (fmtId demo30) =
      ytdlpVideoCmd none (fmtId demo30 ++ "+bestaudio") "https://youtu.be/x" ∧
    ∃ l₁ l₂, videoDownloadCmd [demo30, demo720] none "https://youtu.be/x" (fmtId demo30) =
      l₁ ++ ["-f", fmtId demo30 ++ "+bestaudio"] ++ l₂ :=
  (bestaudio_appended_iff_no_audio [demo30, demo720] none "https://youtu.be/x" 360 demo30
    (by decide) (by decide)).1 rfl

/-- Claim C6: the URL classifier is a pure function of the input string that
accepts exactly the strings starting with one of the twelve fixed literal
prefixes; it accepts `https://youtu.be/abc123` and rejects
`https://example.com/video`. -/
theorem url_classifier_prefix_anchored :
    is_valid_url "https://youtu.be/abc123" = true ∧
    is_valid_url "https://example.com/video" = false ∧
    ∀ t : String, is_valid_url t = true ↔
      ∃ p ∈ urlPatterns, ∃ r, t.data = p.data ++ r := by
  refine ⟨by decide, by decide, ?_⟩
  intro t
  unfold is_valid_url
  rw [List.any_eq_true]
  constructor
  · rintro ⟨p, hp, hs⟩
    exact ⟨p, hp, (startsWithL_iff p.data t.data).1 hs⟩
  · rintro ⟨p, hp, hr⟩
    exact ⟨p, hp, (startsWithL_iff p.data t.data).2 hr⟩

/-- Witness for C6: a string in which a supported host appears only after a
non-matching start is rejected, via the anchoring characterization. -/
theorem url_classifier_prefix_anchored_witness :
    is_valid_url "see https://youtube.com/watch" = false := by
  by_cases hv : is_valid_url "see https://youtube.com/watch" = true
  · exfalso
    rcases (url_classifier_prefix_anchored.2.2 "see https://youtube.com/watch").1 hv with
      ⟨p, hp, r, hr⟩
    revert hr
    fin_cases hp <;> intro hr <;> simp at hr
  · simpa using hv

/-- Claim C9: the main loop sends a URL to the SVT Play handler exactly when
`"svtplay.se"` occurs anywhere in it as a substring, and every other input —
including strings the URL classifier rejects — goes to the YouTube handler. -/
theorem dispatch_substring_svtplay :
    (∀ url : String, dispatchUrl url = Site.svt ↔
       ∃ pre post, url.data = pre ++ "svtplay.se".data ++ post) ∧
    (∀ url : String, dispatchUrl url = Site.youtube ↔
       ¬ ∃ pre post, url.data = pre ++ "svtplay.se".data ++ post) ∧
    dispatchUrl "https://example.com/?src=svtplay.se" = Site.svt ∧
    is_valid_url "https://example.com/video" = false ∧
    dispatchUrl "https://example.com/video" = Site.youtube := by
  have hsvt : ∀ url : String, dispatchUrl url = Site.svt ↔
      ∃ pre post, url.data = pre ++ "svtplay.se".data ++ post := by
    intro url
    constructor
    · intro hd
      by_cases hc : hasSubL "svtplay.se".data url.data = true
      · exact (hasSubL_iff _ _).1 hc
      · exfalso
        unfold dispatchUrl at hd
        rw [if_neg hc] at hd
        exact Site.noConfusion hd
    · intro hex
      unfold dispatchUrl
      rw [if_pos ((hasSubL_iff _ _).2 hex)]
  have hyt : ∀ url : String, dispatchUrl url = Site.youtube ↔
      ¬ ∃ pre post, url.data = pre ++ "svtplay.se".data ++ post := by
    intro url
    by_cases hc : hasSubL "svtplay.se".data url.data = true
    · constructor
      · intro hd
        unfold dispatchUrl at hd
        rw [if_pos hc] at hd
        exact Site.noConfusion hd
      · intro hn
        exact absurd ((hasSubL_iff _ _).1 hc) hn
    · constructor
      · intro _ hex
        exact hc ((hasSubL_iff _ _).2 hex)
      · intro _
        unfold dispatchUrl
        rw [if_neg hc]
  exact ⟨hsvt, hyt, by decide, by decide, by decide⟩

/-- Witness for C9: a URL containing `svtplay.se` only after a non-matching
start is still dispatched to the SVT Play handler, via the substring
characterization. -/
theorem dispatch_substring_svtplay_witness :
    dispatchUrl "x svtplay.se y" = Site.svt :=
  (dispatch_substring_svtplay.1 "x svtplay.se y").2
    ⟨"x ".data, " y".data, by decide⟩

/-- Counterexample for C7: a format fetch whose process exited nonzero (exit
status 1) with parseable output does not abort — the selector runs and the
(nonempty) format list is shown to the user, against the claim that any
failing fetch aborts without showing a list. -/
theorem fetch_failure_counterexample :
    (1 : Int) ≠ 0 ∧
    downloadVideoStep (FetchOutcome.ran 1 (some [demo60])) =
      FmtStepResult.shown (tableRows [demo60]) ∧
    tableRows [demo60] ≠ [] ∧
    downloadVideoStep (FetchOutcome.ran 1 (some [demo60])) ≠ FmtStepResult.aborted :=
  ⟨by decide, rfl, by decide, by decide⟩

/-- Claim C7 as amended: in the `Download video` path the operation aborts
(without showing any list, but also without reporting) exactly when the
process is missing or its output fails to parse; the exit status alone never
aborts it, and parseable output is always rendered and shown.  Only the
initial info fetch aborts with a user-visible report, and it does so exactly
when the process is missing, exits nonzero, or its first line fails to
parse. -/
theorem fetch_failure_amended :
    downloadVideoStep FetchOutcome.missing = FmtStepResult.aborted ∧
    (∀ rc : Int, downloadVideoStep (FetchOutcome.ran rc none) = FmtStepResult.aborted) ∧
    (∀ (rc : Int) (fs : List Format),
       downloadVideoStep (FetchOutcome.ran rc (some fs)) =
         FmtStepResult.shown (tableRows fs)) ∧
    infoFetchAborts FetchOutcome.missing = true ∧
    (∀ (rc : Int) (p : Option VideoInfo),
       infoFetchAborts (FetchOutcome.ran rc p) = (rc != 0 || p.isNone)) :=
  ⟨rfl, fun _ => rfl, fun _ _ => rfl, rfl, fun _ _ => rfl⟩

/-- Counterexample for C8: on a record carrying an exact file size of zero
bytes a size is available, yet the rendered row shows `"N/A"` — the code
tests Python truthiness, not availability, so the row differs from the
spec-worded rendering. -/
theorem row_render_zero_size_counterexample :
    availSize demoZeroSize = some 0 ∧
    mkRowStr 360 demoZeroSize ≠ specRowStr 360 demoZeroSize ∧
    sizeStr demoZeroSize = "N/A" := by
  have harg : (0 : ℚ) * 10 / 1048576 = 0 := by norm_num
  have hm : fmtMiB (0 : ℚ) = "0.0MiB" := by
    simp only [fmtMiB, harg]
    rfl
  have hfull : specRowStr 360 demoZeroSize =
      "137   | 640x360   | 30   | mp4  | 🎵:NO  | " ++ fmtMiB 0 := rfl
  refine ⟨rfl, ?_, by decide⟩
  rw [hfull, hm]
  decide

/-- Claim C8 as amended: every output row is the rendering of a kept record,
and that rendering is the six fixed-width fields
`formatId | widthxheight | frameRate | extension | audio marker | size`
where the size field is the MiB value with one decimal place when a nonzero
size (exact, else approximate) is present and `"N/A"` otherwise. -/
theorem row_render_amended :
    (∀ (h : Int) (f : Format), mkRowStr h f = specRowStrAmended h f) ∧
    (∀ (fs : List Format) (r : Row), r ∈ tableRows fs →
       ∃ p, p ∈ uniqueResolutions fs ∧ r = mkRow p.1 p.2) :=
  ⟨mkRowStr_eq_specAmended, mem_tableRows⟩

/-- Witness for C8 (amended) at a concrete input: the 360p row of a
one-record input equals the amended spec rendering and arises from the kept
record. -/
theorem row_render_amended_witness :
    mkRowStr 360 demo60 = specRowStrAmended 360 demo60 ∧
    ∃ p, p ∈ uniqueResolutions [demo60] ∧ mkRow 360 demo60 = mkRow p.1 p.2 :=
  ⟨row_render_amended.1 360 demo60,
   row_render_amended.2 [demo60] (mkRow 360 demo60) (by decide)⟩
